import Mathlib

/-!
Verification of the flog log-filtering tool (github.com/ishk9/flog).

This file shallowly embeds the parts of the Go source needed by the
claims under scrutiny:

* internal/filter/convert.go  — value rendering, numeric coercion,
  literal type inference (toString, toFloat64, ParseValue, equalFold,
  containsString, containsFold);
* internal/filter/filter.go   — the matcher (evaluateCondition,
  evaluateConditions, compareValues, equal, compare, matchRegex,
  contains, Match);
* internal/filter/query.go    — the query parser (Parse, parseAndExpr,
  parseOrExpr, parseTerm, parseCondition, parseField, parseOperator,
  parseValue, skipWhitespace);
* internal/parser/json.go     — flattenMap and itoa;
* internal/parser/keyvalue.go — the entry pool (AcquireEntry,
  ReleaseEntry);
* the parallel filter (ParallelFilter.Filter) — modelled as a
  small-step interleaving semantics.

Modelling conventions:

* Go `map[string]any` values are modelled by the tagged union `Value`
  below; Go maps are association lists with unique keys, looked up with
  `List.lookup`.
* Go strings are Lean `String`s and are scanned `Char` by `Char`; the
  Go code indexes bytes, which agrees with per-`Char` scanning on ASCII
  input (the query language and all values exercised here are ASCII).
* Go `float64` is modelled by `ℚ` (exact rationals).  The values the
  claims exercise are small integers, for which the model is exact;
  IEEE-754 rounding, infinities, NaN, hexadecimal float literals and
  the scientific-notation regimes of the %g format verb are outside the
  scope of these claims and are not modelled.
* Compiled regular expressions are modelled abstractly: a compiled
  regex is a predicate `String → Bool`, and `regexp.Compile` is an
  explicit environment parameter `RegexEnv.compile : String → Option
  (String → Bool)`; compile failure is `none`.  The matcher's
  `sync.Map` regex cache is threaded explicitly as an association
  list.
-/

namespace Flog

/-- Dynamic values (`any` in the Go source, `DynamicValue` in the
design document): strings, 64-bit integers, floats (modelled as exact
rationals), booleans, null, JSON arrays and JSON objects. -/
inductive Value where
  | str (s : String)
  | int (i : Int)
  | float (q : ℚ)
  | bool (b : Bool)
  | null
  | arr (vs : List Value)
  | obj (fs : List (String × Value))

/- ---------------------------------------------------------------- -/
/- String and number helpers shared by the embedding.               -/
/- ---------------------------------------------------------------- -/

/-- Decimal rendering of an integer, as Go's strconv.FormatInt(i, 10)
and strconv.Itoa produce it. -/
def intToDecimal (i : Int) : String :=
  if i < 0 then "-" ++ Nat.repr i.natAbs else Nat.repr i.toNat

/-- Strip trailing zero characters from a digit string. -/
def stripTrailingZeros (l : List Char) : List Char :=
  (l.reverse.dropWhile (· = '0')).reverse

/-- Left-pad a digit list with zeros up to length n. -/
def padZeros (n : Nat) (l : List Char) : List Char :=
  List.replicate (n - l.length) '0' ++ l

/-- Model of strconv.FormatFloat(q, 'g', -1, 64) on the rational model
of float64: positional decimal rendering with no trailing zeros.  The
'g' verb's switch to scientific notation (decimal exponent below -4 or
at least 21) is not modelled, nor are rationals whose denominator is
not a product of 2s and 5s (such values never arise from parsing
decimal input; they fall back to a num/den rendering). -/
def formatFloatG (q : ℚ) : String :=
  let sign := if q < 0 then "-" else ""
  let n := q.num.natAbs
  let d := q.den
  match (List.range 400).find? (fun k => (n * 10 ^ k) % d = 0) with
  | none => intToDecimal q.num ++ "/" ++ Nat.repr q.den
  | some k =>
    let digits := n * 10 ^ k / d
    if k = 0 then sign ++ Nat.repr digits
    else
      let ip := digits / 10 ^ k
      let fp := digits % 10 ^ k
      let fracDigits := stripTrailingZeros (padZeros k (Nat.repr fp).data)
      if fracDigits = [] then sign ++ Nat.repr ip
      else sign ++ Nat.repr ip ++ "." ++ String.mk fracDigits

/-- Digit value accumulation for a list of decimal digit characters. -/
def digitsToNat (l : List Char) : Nat :=
  l.foldl (fun acc c => acc * 10 + (c.toNat - '0'.toNat)) 0

/-- Model of strconv.ParseInt(s, 10, 64): an optional single sign
followed by at least one decimal digit, the whole string consumed, and
the value within the int64 range. -/
def parseInt64 (s : String) : Option Int :=
  let l := s.data
  let (neg, rest) :=
    match l with
    | '+' :: r => (false, r)
    | '-' :: r => (true, r)
    | r => (false, r)
  if rest = [] ∨ ¬ rest.all (·.isDigit) then none
  else
    let v : Int := if neg then -(digitsToNat rest : Int) else (digitsToNat rest : Int)
    if -(2 ^ 63) ≤ v ∧ v ≤ 2 ^ 63 - 1 then some v else none

/-- Model of strconv.ParseFloat(s, 64) on the rational model: an
optional sign, a decimal mantissa with at least one digit (digits, an
optional dot, and optional fraction digits), and an optional decimal
exponent; the whole string must be consumed.  Go's "inf"/"nan"
spellings, hexadecimal floats, and round-to-nearest/overflow behaviour
are outside the scope of the claims and are not modelled. -/
def parseFloatQ (s : String) : Option ℚ :=
  let l := s.data
  let (neg, rest) :=
    match l with
    | '+' :: r => (false, r)
    | '-' :: r => (true, r)
    | r => (false, r)
  let ipart := rest.takeWhile (·.isDigit)
  let rest1 := rest.dropWhile (·.isDigit)
  let (fpart, rest2) :=
    match rest1 with
    | '.' :: r => (r.takeWhile (fun c : Char => c.isDigit), r.dropWhile (fun c : Char => c.isDigit))
    | r => (([] : List Char), r)
  if ipart.length + fpart.length = 0 then none
  else
    let mant : ℚ := (digitsToNat (ipart ++ fpart) : ℚ)
    let scale : Int := -(fpart.length : Int)
    let expPart : Option Int :=
      match rest2 with
      | [] => some 0
      | e :: r =>
        if e = 'e' ∨ e = 'E' then
          let (eneg, er) :=
            match r with
            | '+' :: rr => (false, rr)
            | '-' :: rr => (true, rr)
            | rr => (false, rr)
          if er = [] ∨ ¬ er.all (·.isDigit) then none
          else some (if eneg then -(digitsToNat er : Int) else (digitsToNat er : Int))
        else none
    match expPart with
    | none => none
    | some e =>
      let v : ℚ := mant * (10 : ℚ) ^ (scale + e)
      some (if neg then -v else v)

/- ---------------------------------------------------------------- -/
/- internal/filter/convert.go                                       -/
/- ---------------------------------------------------------------- -/

/-- Model of Go's fmt %v rendering, used by toString's default branch
for arrays and objects (the branches of the Go type switch that the
data model can actually produce reach it only for []any and
map[string]any). -/
def sprintfV : Value → String
  | .str s => s
  | .int i => intToDecimal i
  | .float q => formatFloatG q
  | .bool b => if b then "true" else "false"
  | .null => "<nil>"
  | .arr vs => "[" ++ String.intercalate " " (vs.attach.map (fun v => sprintfV v.1)) ++ "]"
  | .obj fs => "map[" ++
      String.intercalate " "
        (fs.attach.map (fun p => p.1.1 ++ ":" ++ sprintfV p.1.2)) ++ "]"
decreasing_by
  · have h := List.sizeOf_lt_of_mem v.2
    simp only [Value.arr.sizeOf_spec]
    omega
  · have h := List.sizeOf_lt_of_mem p.2
    have h2 : sizeOf p.1.2 < sizeOf p.1 := by
      obtain ⟨⟨a, b⟩, hp⟩ := p
      simp only [Prod.mk.sizeOf_spec]
      omega
    simp only [Value.obj.sizeOf_spec]
    omega

/-- convert.go toString: converts any value to its string
representation.  nil renders as the empty string, strings are
unchanged, integers render as decimal, floats via the %g shortest form
with no trailing zeros, booleans as "true"/"false"; other values fall
to the fmt %v default. -/
def toString : Value → String
  | .null => ""
  | .str s => s
  | .int i => intToDecimal i
  | .float q => formatFloatG q
  | .bool b => if b then "true" else "false"
  | v => sprintfV v

/-- convert.go toFloat64: numeric values convert to float64; strings
convert when strconv.ParseFloat accepts them; everything else fails.
(Of the Go numeric branches, only int64 and float64 are producible by
this program's parsers, so Value carries just those.) -/
def toFloat64 : Value → Option ℚ
  | .null => none
  | .float q => some q
  | .int i => some (i : ℚ)
  | .str s => parseFloatQ s
  | _ => none

/-- ASCII lowercase of a string (model of strings.ToLower on the ASCII
inputs this program exercises). -/
def asciiToLower (s : String) : String :=
  String.mk (s.data.map Char.toLower)

/-- convert.go equalFold, i.e. strings.EqualFold, modelled as ASCII
case-insensitive equality. -/
def equalFold (a b : String) : Bool :=
  asciiToLower a = asciiToLower b

/-- Substring occurrence test on character lists. -/
def containsSub (s sub : List Char) : Bool :=
  (List.range (s.length + 1)).any (fun i => sub.isPrefixOf (s.drop i))

/-- convert.go containsString, i.e. strings.Contains. -/
def containsString (s sub : String) : Bool :=
  containsSub s.data sub.data

/-- convert.go containsFold: strings.Contains on lowercased copies. -/
def containsFold (s sub : String) : Bool :=
  containsString (asciiToLower s) (asciiToLower sub)

/-- convert.go ParseValue: parses a literal string into a typed value,
trying in order base-10 int64, float64, boolean (case-insensitive),
null ("null"/"nil", case-insensitive), and finally falling back to the
string itself. -/
def ParseValue (s : String) : Value :=
  match parseInt64 s with
  | some i => .int i
  | none =>
    match parseFloatQ s with
    | some q => .float q
    | none =>
      if asciiToLower s = "true" then .bool true
      else if asciiToLower s = "false" then .bool false
      else if asciiToLower s = "null" ∨ asciiToLower s = "nil" then .null
      else .str s

/- ---------------------------------------------------------------- -/
/- internal/filter/filter.go                                        -/
/- ---------------------------------------------------------------- -/

/-- filter.go Operator: the comparison kind of a condition. -/
inductive Operator where
  | opEq | opNe | opGt | opLt | opGte | opLte | opRegex | opContains | opExists
deriving DecidableEq, Repr

/-- filter.go Logic: how conditions are combined. -/
inductive Logic where
  | and | or
deriving DecidableEq, Repr

/-- filter.go Condition: a single filter condition.  The cached
compiled-regex pointer of the Go struct lives in the matcher's cache
model instead. -/
structure Condition where
  field : String
  operator : Operator
  value : Value
  ignoreCase : Bool

/-- filter.go NewCondition: builds a condition with the
case-insensitivity flag left at its zero value. -/
def NewCondition (field : String) (op : Operator) (value : Value) : Condition :=
  ⟨field, op, value, false⟩

/-- filter.go FilterChain: conditions plus nested sub-chains combined
under one logic. -/
inductive FilterChain where
  | mk (conditions : List Condition) (logic : Logic) (subChains : List FilterChain)

/-- The conditions of a chain. -/
def FilterChain.conditions : FilterChain → List Condition
  | .mk c _ _ => c

/-- The logic of a chain. -/
def FilterChain.logic : FilterChain → Logic
  | .mk _ l _ => l

/-- The sub-chains of a chain. -/
def FilterChain.subChains : FilterChain → List FilterChain
  | .mk _ _ s => s

/-- parser.go (internal/parser) LogEntry: one parsed log line.  The
fields map is an association list with unique keys. -/
structure LogEntry where
  raw : String
  fields : List (String × Value)
  lineNum : Int

/-- The ambient regular-expression engine: regexp.Compile modelled as
a partial map from pattern text to a match predicate. -/
structure RegexEnv where
  compile : String → Option (String → Bool)

/-- The matcher's regex cache (a sync.Map from pattern text to the
compiled regex), threaded explicitly. -/
def Cache := List (String × (String → Bool))

/-- filter.go Matcher: carries the global case-insensitivity flag; the
regex cache is threaded separately. -/
structure Matcher where
  ignoreCase : Bool

/-- filter.go equal: string-representation equality, case-insensitive
on request. -/
def equal (a b : Value) (ignoreCase : Bool) : Bool :=
  let aStr := toString a
  let bStr := toString b
  if ignoreCase then equalFold aStr bStr else aStr == bStr

/-- Character-list lexicographic strict order; on ASCII this is Go's
byte-wise string comparison (and UTF-8 byte order agrees with
code-point order in general). -/
def charListLt : List Char → List Char → Bool
  | [], [] => false
  | [], _ :: _ => true
  | _ :: _, [] => false
  | a :: as, b :: bs => if a = b then charListLt as bs else decide (a < b)

/-- Go's string `<`. -/
def strLt (a b : String) : Bool :=
  charListLt a.data b.data

/-- filter.go compare: numeric comparison when both sides coerce to
float64, else lexicographic comparison of string representations;
returns -1, 0, or 1. -/
def compare (a b : Value) : Int :=
  match toFloat64 a, toFloat64 b with
  | some aNum, some bNum =>
    if aNum < bNum then -1 else if aNum > bNum then 1 else 0
  | _, _ =>
    let aStr := toString a
    let bStr := toString b
    if strLt aStr bStr then -1 else if strLt bStr aStr then 1 else 0

/-- filter.go contains: substring test on stringified values,
case-insensitive on request. -/
def contains (fieldValue searchValue : Value) (ignoreCase : Bool) : Bool :=
  let fieldStr := toString fieldValue
  let searchStr := toString searchValue
  if ignoreCase then containsFold fieldStr searchStr
  else containsString fieldStr searchStr

/-- filter.go matchRegex: looks the stringified condition value up in
the cache; on a miss compiles it (prefixing the (?i) inline flag when
case-insensitivity is requested), returning false on compile failure,
and caches successful compilations under the bare pattern text. -/
def matchRegex (env : RegexEnv) (m : Matcher) (cache : Cache)
    (fieldValue : Value) (cond : Condition) : Bool × Cache :=
  let pattern := toString cond.value
  match List.lookup pattern cache with
  | some re => (re (toString fieldValue), cache)
  | none =>
    let compiled :=
      if cond.ignoreCase || m.ignoreCase then env.compile ("(?i)" ++ pattern)
      else env.compile pattern
    match compiled with
    | none => (false, cache)
    | some re => (re (toString fieldValue), (pattern, re) :: cache)

/-- filter.go compareValues: dispatch on the operator.  The opExists
arm is the Go default branch (unreachable, since evaluateCondition
handles existence first). -/
def compareValues (env : RegexEnv) (m : Matcher) (cache : Cache)
    (fieldValue : Value) (cond : Condition) : Bool × Cache :=
  match cond.operator with
  | .opEq => (equal fieldValue cond.value (cond.ignoreCase || m.ignoreCase), cache)
  | .opNe => (! equal fieldValue cond.value (cond.ignoreCase || m.ignoreCase), cache)
  | .opGt => (decide (compare fieldValue cond.value > 0), cache)
  | .opLt => (decide (compare fieldValue cond.value < 0), cache)
  | .opGte => (decide (compare fieldValue cond.value ≥ 0), cache)
  | .opLte => (decide (compare fieldValue cond.value ≤ 0), cache)
  | .opRegex => matchRegex env m cache fieldValue cond
  | .opContains => (contains fieldValue cond.value (cond.ignoreCase || m.ignoreCase), cache)
  | .opExists => (false, cache)

/-- filter.go evaluateCondition: existence checks consult the fields
map directly; every other operator evaluates to false when the field
is absent, and otherwise compares the field value. -/
def evaluateCondition (env : RegexEnv) (m : Matcher) (cache : Cache)
    (entry : LogEntry) (cond : Condition) : Bool × Cache :=
  if cond.operator = .opExists then
    ((List.lookup cond.field entry.fields).isSome, cache)
  else
    match List.lookup cond.field entry.fields with
    | none => (false, cache)
    | some fieldValue => compareValues env m cache fieldValue cond

/-- The loop body of filter.go evaluateConditions: short-circuit
evaluation, with the end of the list yielding (logic == LogicAnd). -/
def evaluateConditionsLoop (env : RegexEnv) (m : Matcher) (entry : LogEntry) :
    Cache → List Condition → Logic → Bool × Cache
  | cache, [], logic => (decide (logic = .and), cache)
  | cache, cond :: rest, logic =>
    let (result, cache') := evaluateCondition env m cache entry cond
    match logic with
    | .and =>
      if ! result then (false, cache')
      else evaluateConditionsLoop env m entry cache' rest logic
    | .or =>
      if result then (true, cache')
      else evaluateConditionsLoop env m entry cache' rest logic

/-- filter.go evaluateConditions: an empty slice returns true before
the loop; otherwise the short-circuit loop runs. -/
def evaluateConditions (env : RegexEnv) (m : Matcher) (cache : Cache)
    (entry : LogEntry) (conditions : List Condition) (logic : Logic) : Bool × Cache :=
  if conditions.isEmpty then (true, cache)
  else evaluateConditionsLoop env m entry cache conditions logic

mutual

/-- filter.go Match on a non-nil chain: an empty chain matches
vacuously; otherwise the direct conditions are evaluated, then the
sub-chains under the same logic (a failing sub-chain short-circuits an
AND node to false, a passing one an OR node to true), and finally the
condition result decides. -/
def matchChain (env : RegexEnv) (m : Matcher) (entry : LogEntry) :
    FilterChain → Cache → Bool × Cache
  | .mk conds logic subs, cache =>
    if conds.isEmpty && subs.isEmpty then (true, cache)
    else
      let (conditionResult, cache1) := evaluateConditions env m cache entry conds logic
      if subs.isEmpty then (conditionResult, cache1)
      else
        match matchSubs env m entry subs logic cache1 with
        | (some b, cache2) => (b, cache2)
        | (none, cache2) => (conditionResult, cache2)

/-- The sub-chain loop of filter.go Match; some b models the early
returns, none models falling off the loop. -/
def matchSubs (env : RegexEnv) (m : Matcher) (entry : LogEntry) :
    List FilterChain → Logic → Cache → Option Bool × Cache
  | [], _, cache => (none, cache)
  | sub :: rest, logic, cache =>
    let (subResult, cache') := matchChain env m entry sub cache
    match logic with
    | .and =>
      if ! subResult then (some false, cache')
      else matchSubs env m entry rest logic cache'
    | .or =>
      if subResult then (some true, cache')
      else matchSubs env m entry rest logic cache'

end

/-- filter.go Match: a nil chain matches everything. -/
def Match (env : RegexEnv) (m : Matcher) (cache : Cache) (entry : LogEntry) :
    Option FilterChain → Bool × Cache
  | none => (true, cache)
  | some chain => matchChain env m entry chain cache

/- ---------------------------------------------------------------- -/
/- internal/filter/query.go                                         -/
/- ---------------------------------------------------------------- -/

/-- query.go parse errors. -/
inductive QErr where
  | emptyQuery | invalidSyntax | unclosedParen | unexpectedToken
  | invalidOperator | missingField | missingValue
deriving DecidableEq, Repr

/-- unicode.IsSpace applied to a byte-rune, as the query parser does
(the byte values below 0x100 that IsSpace accepts). -/
def goIsSpace (c : Char) : Bool :=
  c = ' ' ∨ c = '\t' ∨ c = '\n' ∨ c.toNat = 0xB ∨ c.toNat = 0xC ∨
    c = '\r' ∨ c.toNat = 0x85 ∨ c.toNat = 0xA0

/-- The characters query.go parseField accepts: letters, digits,
underscore, dot, and square brackets (letters restricted to ASCII, as
everywhere in this development). -/
def isFieldChar (c : Char) : Bool :=
  c.isAlpha ∨ c.isDigit ∨ c = '_' ∨ c = '.' ∨ c = '[' ∨ c = ']'

/-- The delimiters ending an unquoted value in query.go parseValue. -/
def isValueDelim (c : Char) : Bool :=
  c = ',' ∨ c = '|' ∨ c = ')' ∨ c = ' ' ∨ c = '\t'

/-- Go slice notation input[a:b] on character lists. -/
def strSub (input : List Char) (a b : Nat) : List Char :=
  (input.drop a).take (b - a)

/-- Advance a position while a character predicate holds, walking the
suffix of the input that starts at the position. -/
def scanWhileAux (f : Char → Bool) : List Char → Nat → Nat
  | [], pos => pos
  | c :: rest, pos => if f c then scanWhileAux f rest (pos + 1) else pos

/-- Advance a position while a character predicate holds (the Go idiom
"for pos < len(input) && f(input[pos]) { pos++ }"). -/
def scanWhile (f : Char → Bool) (input : List Char) (pos : Nat) : Nat :=
  scanWhileAux f (input.drop pos) pos

theorem scanWhileAux_ge (f : Char → Bool) (l : List Char) (pos : Nat) :
    pos ≤ scanWhileAux f l pos := by
  induction l generalizing pos with
  | nil => exact le_refl pos
  | cons c rest ih =>
    unfold scanWhileAux
    split
    · exact le_trans (Nat.le_succ pos) (ih (pos + 1))
    · exact le_refl pos

theorem scanWhile_ge (f : Char → Bool) (input : List Char) (pos : Nat) :
    pos ≤ scanWhile f input pos :=
  scanWhileAux_ge f (input.drop pos) pos

/-- query.go skipWhitespace. -/
def skipWhitespace (input : List Char) (pos : Nat) : Nat :=
  scanWhile goIsSpace input pos

theorem skipWhitespace_ge (input : List Char) (pos : Nat) :
    pos ≤ skipWhitespace input pos :=
  scanWhile_ge goIsSpace input pos

/-- Suffix walk of the quoted-value scan: a backslash with a character
after it steps over both (the Go loop's "pos+1 < n" guard is "the
suffix after the backslash is nonempty"). -/
def scanQuotedAux (quote : Char) : List Char → Nat → Nat
  | [], pos => pos
  | [c], pos => if c = quote then pos else pos + 1
  | c :: c2 :: rest2, pos =>
    if c = quote then pos
    else if c = '\\' then scanQuotedAux quote rest2 (pos + 2)
    else scanQuotedAux quote (c2 :: rest2) (pos + 1)

/-- The quoted-value scan of query.go parseValue: advance to the
terminating quote, stepping over a backslash and the character it
escapes; returns the position of the closing quote (or the end of
input). -/
def scanQuoted (input : List Char) (quote : Char) (pos : Nat) : Nat :=
  scanQuotedAux quote (input.drop pos) pos

theorem scanQuotedAux_ge (quote : Char) :
    ∀ (l : List Char) (pos : Nat), pos ≤ scanQuotedAux quote l pos
  | [], pos => le_refl pos
  | [c], pos => by
    unfold scanQuotedAux
    split
    · exact le_refl pos
    · exact Nat.le_succ pos
  | c :: c2 :: rest2, pos => by
    unfold scanQuotedAux
    split
    · exact le_refl pos
    · split
      · exact le_trans (by omega) (scanQuotedAux_ge quote rest2 (pos + 2))
      · exact le_trans (Nat.le_succ pos) (scanQuotedAux_ge quote (c2 :: rest2) (pos + 1))

theorem scanQuoted_ge (input : List Char) (quote : Char) (pos : Nat) :
    pos ≤ scanQuoted input quote pos :=
  scanQuotedAux_ge quote (input.drop pos) pos

/-- Suffix walk of the parenthesis scan: stop with the current
position once the depth reaches zero; fail when input runs out at
positive depth. -/
def scanGroupAux : List Char → Nat → Nat → Option Nat
  | _, pos, 0 => some pos
  | [], _, _ + 1 => none
  | c :: rest, pos, d + 1 =>
    let depth' := if c = '(' then d + 2 else if c = ')' then d else d + 1
    scanGroupAux rest (pos + 1) depth'

/-- The parenthesis scan of query.go parseTerm: starting just after an
opening parenthesis with the given depth, advance until the depth
returns to zero or input is exhausted; returns the position just after
the matching closing parenthesis, or none when unclosed. -/
def scanGroup (input : List Char) (pos : Nat) (depth : Nat) : Option Nat :=
  scanGroupAux (input.drop pos) pos depth

theorem scanGroupAux_ge (l : List Char) (pos : Nat) (depth : Nat) (j : Nat)
    (h : scanGroupAux l pos depth = some j) : pos ≤ j := by
  induction l generalizing pos depth with
  | nil =>
    cases depth with
    | zero => exact le_of_eq (Option.some.inj h)
    | succ d => exact absurd h (by simp [scanGroupAux])
  | cons c rest ih =>
    cases depth with
    | zero => exact le_of_eq (Option.some.inj h)
    | succ d =>
      unfold scanGroupAux at h
      exact le_trans (Nat.le_succ pos) (ih (pos + 1) _ h)

theorem scanGroup_ge (input : List Char) (pos : Nat) (depth : Nat) (j : Nat)
    (h : scanGroup input pos depth = some j) : pos ≤ j :=
  scanGroupAux_ge (input.drop pos) pos depth j h

/-- query.go parseField: skip whitespace, then take the longest run of
field characters (possibly empty). -/
def parseField (input : List Char) (pos : Nat) : String × Nat :=
  let start := skipWhitespace input pos
  let stop := scanWhile isFieldChar input start
  (String.mk (strSub input start stop), stop)

theorem parseField_ge (input : List Char) (pos : Nat) :
    pos ≤ (parseField input pos).2 :=
  le_trans (skipWhitespace_ge input pos) (scanWhile_ge _ input _)

/-- query.go parseOperator: two-character operators are recognized
before single-character ones; colon and equals both mean equality. -/
def parseOperator (input : List Char) (pos : Nat) : Except QErr (Operator × Nat) :=
  let pos1 := skipWhitespace input pos
  if h : pos1 < input.length then
    let c1 := input.get ⟨pos1, h⟩
    let twoCharOp : Option Operator :=
      if h2 : pos1 + 1 < input.length then
        let c2 := input.get ⟨pos1 + 1, h2⟩
        if c1 = '!' ∧ c2 = '=' then some .opNe
        else if c1 = '>' ∧ c2 = '=' then some .opGte
        else if c1 = '<' ∧ c2 = '=' then some .opLte
        else if c1 = '~' ∧ c2 = '=' then some .opRegex
        else if c1 = '*' ∧ c2 = '=' then some .opContains
        else none
      else none
    match twoCharOp with
    | some op => .ok (op, pos1 + 2)
    | none =>
      if c1 = ':' ∨ c1 = '=' then .ok (.opEq, pos1 + 1)
      else if c1 = '>' then .ok (.opGt, pos1 + 1)
      else if c1 = '<' then .ok (.opLt, pos1 + 1)
      else .error .invalidOperator
  else .error .invalidOperator

theorem parseOperator_ge (input : List Char) (pos : Nat) (op : Operator) (p' : Nat)
    (h : parseOperator input pos = .ok (op, p')) : pos ≤ p' := by
  have hws := skipWhitespace_ge input pos
  unfold parseOperator at h
  dsimp only at h
  repeat' split at h
  all_goals
    first
      | (injection h with h1; injection h1 with h2 h3; omega)
      | injection h

/-- query.go parseValue: after whitespace, either a quoted value
(double or single quotes, backslash escapes the terminator) or an
unquoted token ending at a comma, pipe, closing parenthesis, space or
tab; at end of input the empty value is returned. -/
def parseValue (input : List Char) (pos : Nat) : String × Nat :=
  let pos1 := skipWhitespace input pos
  if h : pos1 < input.length then
    let c := input.get ⟨pos1, h⟩
    if c = '"' ∨ c = '\'' then
      let e := scanQuoted input c (pos1 + 1)
      (String.mk (strSub input (pos1 + 1) e), if e < input.length then e + 1 else e)
    else
      let e := scanWhile (fun ch => ! isValueDelim ch) input pos1
      (String.mk (strSub input pos1 e), e)
  else ("", pos1)

theorem parseValue_ge (input : List Char) (pos : Nat) :
    pos ≤ (parseValue input pos).2 := by
  have hws := skipWhitespace_ge input pos
  unfold parseValue
  dsimp only
  split
  · next h =>
    split
    · have hq := scanQuoted_ge input (input.get ⟨skipWhitespace input pos, h⟩)
        (skipWhitespace input pos + 1)
      dsimp only
      split <;> omega
    · have hsw := scanWhile_ge (fun ch => ! isValueDelim ch) input (skipWhitespace input pos)
      dsimp only
      omega
  · dsimp only
    omega

/-- The operator-and-value tail of query.go parseCondition. -/
def parseCondRest (input : List Char) (field : String) (pos : Nat) :
    Except QErr (Condition × Nat) :=
  match parseOperator input pos with
  | .error e => .error e
  | .ok (op, pos3) =>
    let (valueStr, pos4) := parseValue input pos3
    .ok (NewCondition field op (ParseValue valueStr), pos4)

theorem parseCondRest_ge (input : List Char) (field : String) (pos : Nat)
    (c : Condition) (p' : Nat)
    (h : parseCondRest input field pos = .ok (c, p')) : pos ≤ p' := by
  unfold parseCondRest at h
  split at h
  · exact absurd h (by simp)
  · next op pos3 heq =>
    have h1 := parseOperator_ge input pos op pos3 heq
    have h2 := parseValue_ge input pos3
    rcases hpv : parseValue input pos3 with ⟨v4, p4⟩
    rw [hpv] at h h2
    dsimp only at h h2
    injection h with h3
    injection h3 with _ h4
    omega

/-- query.go parseCondition: a field name (empty fails with
MissingField), then either the existence marker (a question mark, with
a nil value) or an operator and a value run through ParseValue. -/
def parseCondition (input : List Char) (pos : Nat) : Except QErr (Condition × Nat) :=
  let (field, pos1) := parseField input (skipWhitespace input pos)
  if field = "" then .error .missingField
  else
    let pos2 := skipWhitespace input pos1
    match input[pos2]? with
    | some c =>
      if c = '?' then .ok (NewCondition field .opExists .null, pos2 + 1)
      else parseCondRest input field pos2
    | none => parseCondRest input field pos2

theorem parseCondition_ge (input : List Char) (pos : Nat) (c : Condition) (p' : Nat)
    (h : parseCondition input pos = .ok (c, p')) : pos ≤ p' := by
  have h0 := skipWhitespace_ge input pos
  have h1 := parseField_ge input (skipWhitespace input pos)
  unfold parseCondition at h
  rcases hpf : parseField input (skipWhitespace input pos) with ⟨field, pos1⟩
  rw [hpf] at h h1
  dsimp only at h h1
  have h2 := skipWhitespace_ge input pos1
  split at h
  · exact absurd h (by simp)
  · split at h
    · split at h
      · injection h with h3
        injection h3 with _ h4
        omega
      · exact le_trans (by omega) (parseCondRest_ge input _ _ c p' h)
    · exact le_trans (by omega) (parseCondRest_ge input _ _ c p' h)

/-- query.go parseTerm: at an opening parenthesis, scan to the
depth-matching closing parenthesis (failing with UnclosedParen when
there is none) and parse the inner text as a single term with a fresh
parser; otherwise parse one condition. -/
def parseTerm (input : List Char) (pos : Nat) : Except QErr (Condition × Nat) :=
  let pos0 := skipWhitespace input pos
  if h : pos0 < input.length then
    if input.get ⟨pos0, h⟩ = '(' then
      match scanGroup input (pos0 + 1) 1 with
      | none => .error .unclosedParen
      | some j =>
        match parseTerm (strSub input (pos0 + 1) (j - 1)) 0 with
        | .error e => .error e
        | .ok (cond, _) => .ok (cond, j)
    else parseCondition input pos0
  else .error .invalidSyntax
termination_by input.length
decreasing_by
  simp only [strSub, List.length_take, List.length_drop]
  omega

theorem parseTerm_ge (input : List Char) (pos : Nat) (c : Condition) (p' : Nat)
    (h : parseTerm input pos = .ok (c, p')) : pos ≤ p' := by
  have h0 := skipWhitespace_ge input pos
  rw [parseTerm] at h
  split at h
  · split at h
    · split at h
      · exact absurd h (by simp)
      · next j hj =>
        have := scanGroup_ge input (skipWhitespace input pos + 1) 1 j hj
        split at h
        · exact absurd h (by simp)
        · injection h with h3
          injection h3 with _ h4
          omega
    · exact le_trans h0 (parseCondition_ge input _ c p' h)
  · exact absurd h (by simp)

/-- The pipe loop of query.go parseOrExpr: while the next non-space
character is a pipe, consume it and parse another term. -/
def parseOrLoop (input : List Char) (pos : Nat) (acc : List Condition) :
    Except QErr (List Condition × Nat) :=
  let pos1 := skipWhitespace input pos
  if h : pos1 < input.length then
    if input.get ⟨pos1, h⟩ = '|' then
      match ht : parseTerm input (pos1 + 1) with
      | .error e => .error e
      | .ok (c, pos2) => parseOrLoop input pos2 (acc ++ [c])
    else .ok (acc, pos1)
  else .ok (acc, pos1)
termination_by input.length - pos
decreasing_by
  have h1 := skipWhitespace_ge input pos
  have h2 := parseTerm_ge input (skipWhitespace input pos + 1) c pos2 ht
  omega

theorem parseOrLoop_ge (input : List Char) (pos : Nat) (acc : List Condition)
    (cs : List Condition) (p' : Nat)
    (h : parseOrLoop input pos acc = .ok (cs, p')) : pos ≤ p' := by
  have h1 := skipWhitespace_ge input pos
  rw [parseOrLoop] at h
  split at h
  · split at h
    · split at h
      · exact absurd h (by simp)
      · next c pos2 ht =>
        have h2 := parseTerm_ge input (skipWhitespace input pos + 1) c pos2 ht
        have h3 := parseOrLoop_ge input pos2 (acc ++ [c]) cs p' h
        omega
    · injection h with h4
      injection h4 with _ h5
      omega
  · injection h with h4
    injection h4 with _ h5
    omega
termination_by input.length - pos
decreasing_by omega

/-- query.go parseOrExpr: a first term, then pipe-separated terms; a
single condition is returned as an AND chain, several as an OR
chain. -/
def parseOrExpr (input : List Char) (pos : Nat) : Except QErr (FilterChain × Nat) :=
  match parseTerm input pos with
  | .error e => .error e
  | .ok (first, pos1) =>
    match parseOrLoop input pos1 [first] with
    | .error e => .error e
    | .ok (conds, pos2) =>
      match conds with
      | [c] => .ok (FilterChain.mk [c] .and [], pos2)
      | _ => .ok (FilterChain.mk conds .or [], pos2)

theorem parseOrExpr_ge (input : List Char) (pos : Nat) (ch : FilterChain) (p' : Nat)
    (h : parseOrExpr input pos = .ok (ch, p')) : pos ≤ p' := by
  unfold parseOrExpr at h
  split at h
  · exact absurd h (by simp)
  · next first pos1 ht =>
    have h1 := parseTerm_ge input pos first pos1 ht
    split at h
    · exact absurd h (by simp)
    · next conds pos2 hl =>
      have h2 := parseOrLoop_ge input pos1 [first] conds pos2 hl
      split at h <;>
        (injection h with h3; injection h3 with _ h4; omega)

/-- The merge step of query.go parseAndExpr: a term that is a single
bare AND condition is inlined into the top-level conditions; an OR
term or a term with sub-chains becomes a sub-chain; anything else is
inlined. -/
def mergeTerm (conds : List Condition) (subs : List FilterChain) (term : FilterChain) :
    List Condition × List FilterChain :=
  if term.subChains.isEmpty && decide (term.conditions.length = 1) &&
      decide (term.logic = .and) then
    (conds ++ term.conditions, subs)
  else if decide (term.logic = .or) || ! term.subChains.isEmpty then
    (conds, subs ++ [term])
  else (conds ++ term.conditions, subs)

/-- The comma loop of query.go parseAndExpr. -/
def parseAndLoop (input : List Char) (pos : Nat) (conds : List Condition)
    (subs : List FilterChain) : Except QErr (FilterChain × Nat) :=
  let pos1 := skipWhitespace input pos
  if h : pos1 < input.length then
    if input.get ⟨pos1, h⟩ = ',' then
      match ht : parseOrExpr input (pos1 + 1) with
      | .error e => .error e
      | .ok (term, pos2) =>
        let (conds', subs') := mergeTerm conds subs term
        parseAndLoop input pos2 conds' subs'
    else .ok (FilterChain.mk conds .and subs, pos1)
  else .ok (FilterChain.mk conds .and subs, pos1)
termination_by input.length - pos
decreasing_by
  have h1 := skipWhitespace_ge input pos
  have h2 := parseOrExpr_ge input (skipWhitespace input pos + 1) term pos2 ht
  omega

/-- query.go parseAndExpr: the first or-group, then comma-separated
or-groups, merged into the top-level AND chain. -/
def parseAndExpr (input : List Char) (pos : Nat) : Except QErr (FilterChain × Nat) :=
  match parseOrExpr input pos with
  | .error e => .error e
  | .ok (first, pos1) =>
    let (conds, subs) := mergeTerm [] [] first
    parseAndLoop input pos1 conds subs

/-- query.go parseExpression. -/
def parseExpression (input : List Char) (pos : Nat) : Except QErr (FilterChain × Nat) :=
  parseAndExpr input pos

/-- strings.TrimSpace: strip leading and trailing whitespace. -/
def trimSpace (s : String) : String :=
  String.mk (((s.data.dropWhile goIsSpace).reverse.dropWhile goIsSpace).reverse)

/-- query.go Parse: trim the query, fail with EmptyQuery when nothing
remains, and otherwise run the expression parser from position 0. -/
def Parse (query : String) : Except QErr FilterChain :=
  let q := trimSpace query
  if q = "" then .error .emptyQuery
  else
    match parseExpression q.data 0 with
    | .error e => .error e
    | .ok (chain, _) => .ok chain

/- ---------------------------------------------------------------- -/
/- internal/parser/json.go                                          -/
/- ---------------------------------------------------------------- -/

/-- Assignment m[k] = v on a Go map modelled as an association list:
replace the binding when the key exists, append otherwise. -/
def mapStore (m : List (String × Value)) (k : String) (v : Value) : List (String × Value) :=
  if m.any (fun p => p.1 = k) then m.map (fun p => if p.1 = k then (k, v) else p)
  else m ++ [(k, v)]

/-- The dot-path key json.go flattenMap builds for a child key. -/
def joinKey (pre key : String) : String :=
  if pre = "" then key else pre ++ "." ++ key

mutual

/-- The sequence of map stores json.go flattenMap performs on its
result map, in the order its loop performs them: for a nested object,
the stores of the recursive flattening under the dot-joined key
followed by the store of the object itself at that key; for an array,
the store of the array at its key followed by the stores of the
element loop; for any other value the single direct store.  Entries of
data are processed in list order (Go iterates the map in an
unspecified order, which is immaterial for the membership properties
proved here because JSON object keys are unique). -/
def flattenWrites (pre : String) (data : List (String × Value)) :
    List (String × Value) :=
  match data with
  | [] => []
  | (key, value) :: rest =>
    let fullKey := joinKey pre key
    (match value with
     | .obj m => flattenWrites fullKey m ++ [(fullKey, .obj m)]
     | .arr vs => (fullKey, .arr vs) :: arrWrites fullKey 0 vs
     | v => [(fullKey, v)]) ++ flattenWrites pre rest

/-- The stores of the array-element loop of json.go flattenMap:
object elements are flattened under fullKey[index], other elements
store nothing. -/
def arrWrites (fullKey : String) (i : Nat) (vs : List Value) : List (String × Value) :=
  match vs with
  | [] => []
  | v :: rest =>
    (match v with
     | .obj m => flattenWrites (fullKey ++ "[" ++ intToDecimal i ++ "]") m
     | _ => []) ++ arrWrites fullKey (i + 1) rest

end

/-- Apply a sequence of map stores to a map, in order. -/
def applyWrites (result : List (String × Value)) (ws : List (String × Value)) :
    List (String × Value) :=
  ws.foldl (fun r p => mapStore r p.1 p.2) result

/-- json.go flattenMap: the result map after the flattening's store
sequence has been applied to it.  (The Go function mutates the result
map one store at a time; flattenWrites is exactly that store sequence
in execution order, so replaying it with applyWrites performs the same
mutation.) -/
def flattenMap (pre : String) (data : List (String × Value))
    (result : List (String × Value)) : List (String × Value) :=
  applyWrites result (flattenWrites pre data)

/- ---------------------------------------------------------------- -/
/- internal/parser/keyvalue.go: the entry pool                      -/
/- ---------------------------------------------------------------- -/

/-- One Go delete(m, k) on the association-list model. -/
def eraseKey (m : List (String × Value)) (k : String) : List (String × Value) :=
  m.filter (fun p => p.1 ≠ k)

/-- The clearing loop of AcquireEntry: delete every key of the fields
map. -/
def clearFields (m : List (String × Value)) : List (String × Value) :=
  (m.map Prod.fst).foldl eraseKey m

/-- The clearing AcquireEntry performs on the entry it obtained from
the pool. -/
def clearEntry (e : LogEntry) : LogEntry :=
  { raw := "", fields := clearFields e.fields, lineNum := 0 }

/-- parser.go AcquireEntry: take an entry from the pool (the pool's
New function supplies a fresh one when empty) and clear its fields,
raw line, and line number. -/
def AcquireEntry (pool : List LogEntry) : LogEntry × List LogEntry :=
  match pool with
  | [] => (clearEntry { raw := "", fields := [], lineNum := 0 }, [])
  | e :: rest => (clearEntry e, rest)

/-- parser.go ReleaseEntry: put the entry back into the pool. -/
def ReleaseEntry (e : LogEntry) (pool : List LogEntry) : List LogEntry :=
  e :: pool

/- ---------------------------------------------------------------- -/
/- The parallel filter (ParallelFilter.Filter): an interleaving     -/
/- model                                                            -/
/- ---------------------------------------------------------------- -/

/-- A worker of ParallelFilter.Filter is either waiting on the lines
channel or holding a received line (tagged with its 1-based source
position) that it has not yet numbered and processed. -/
inductive WStatus where
  | idle
  | holding (idx : Nat) (line : String)
deriving DecidableEq, Repr

/-- The shared state of ParallelFilter.Filter: the unread tail of the
FIFO lines channel (each line tagged with its 1-based source
position), the mutex-guarded lineNum counter, the workers, and the
records emitted so far, as (source position, line, assigned LineNum)
triples. -/
structure PipeState where
  pending : List (Nat × String)
  counter : Nat
  workers : List WStatus
  output : List (Nat × String × Nat)

/-- One scheduling choice: which worker performs its next atomic
action. -/
inductive PStep where
  | recv (w : Nat)
  | proc (w : Nat)

/-- One atomic action of ParallelFilter.Filter.  recv is the channel
receive (line, ok := <-lines); proc is the mutex-guarded counter
increment that assigns the sequence number, followed by
parse/match/emit (matched abstracts the parser and the filter chain; a
line that fails to parse or does not match is simply not emitted, but
its sequence number is consumed either way, exactly as in the Go code,
which takes the number before parsing).  Nothing ties the channel
receive and the counter increment together: they are separate critical
sections, which is the point of claim C9. -/
def step (matched : String → Bool) (s : PipeState) : PStep → Option PipeState
  | .recv w =>
    match s.workers[w]? with
    | some .idle =>
      match s.pending with
      | [] => none
      | p :: rest =>
        some { s with pending := rest, workers := s.workers.set w (.holding p.1 p.2) }
    | _ => none
  | .proc w =>
    match s.workers[w]? with
    | some (.holding idx line) =>
      let seq := s.counter + 1
      some { s with
        counter := seq,
        workers := s.workers.set w .idle,
        output := if matched line then s.output ++ [(idx, line, seq)] else s.output }
    | _ => none

/-- Run a schedule; impossible steps are skipped. -/
def runSched (matched : String → Bool) (steps : List PStep) (s : PipeState) : PipeState :=
  steps.foldl (fun st op => (step matched st op).getD st) s

/-- The initial state: all lines unread and tagged with their 1-based
source positions, counter zero, all workers idle, nothing emitted. -/
def initState (lines : List String) (w : Nat) : PipeState :=
  { pending := lines.enum.map (fun p => (p.1 + 1, p.2))
    counter := 0
    workers := List.replicate w .idle
    output := [] }

/- ---------------------------------------------------------------- -/
/- Specification-side definitions (for refinement comparisons)      -/
/- ---------------------------------------------------------------- -/

/-- The condition evaluation described by the specification: a
short-circuit fold whose empty case is the identity element of the
logic (true for AND, false for OR); under AND the first failing
condition yields false, under OR the first passing condition yields
true. -/
def specFoldConditions (env : RegexEnv) (m : Matcher) (cache : Cache)
    (entry : LogEntry) : List Condition → Logic → Bool × Cache
  | [], logic =>
    (match logic with
     | .and => true
     | .or => false, cache)
  | cond :: rest, logic =>
    let (result, cache') := evaluateCondition env m cache entry cond
    match logic with
    | .and =>
      if result then specFoldConditions env m cache' entry rest .and
      else (false, cache')
    | .or =>
      if result then (true, cache')
      else specFoldConditions env m cache' entry rest .or

/-- The numeric reading of an ordering operator, as the specification
words it ("the numeric comparison of the coerced floats"). -/
def numCmpHolds (op : Operator) (a b : ℚ) : Bool :=
  match op with
  | .opGt => decide (a > b)
  | .opLt => decide (a < b)
  | .opGte => decide (a ≥ b)
  | .opLte => decide (a ≤ b)
  | _ => false

/-- The lexicographic reading of an ordering operator on the two
string representations. -/
def strCmpHolds (op : Operator) (a b : String) : Bool :=
  match op with
  | .opGt => strLt b a
  | .opLt => strLt a b
  | .opGte => ! strLt a b
  | .opLte => ! strLt b a
  | _ => false

/- ---------------------------------------------------------------- -/
/- Theorems                                                         -/
/- ---------------------------------------------------------------- -/

theorem evaluateConditionsLoop_eq_specFold (env : RegexEnv) (m : Matcher)
    (entry : LogEntry) :
    ∀ (cache : Cache) (conds : List Condition) (logic : Logic),
      evaluateConditionsLoop env m entry cache conds logic =
        specFoldConditions env m cache entry conds logic
  | cache, [], logic => by cases logic <;> rfl
  | cache, c :: rest, logic => by
    unfold evaluateConditionsLoop specFoldConditions
    rcases h : evaluateCondition env m cache entry c with ⟨r, cache'⟩
    dsimp only
    cases logic with
    | and =>
      cases r <;>
        simp [evaluateConditionsLoop_eq_specFold env m entry cache' rest .and]
    | or =>
      cases r <;>
        simp [evaluateConditionsLoop_eq_specFold env m entry cache' rest .or]

/-- Claim C1, counterexample to the stated empty-sequence behaviour:
on an empty condition sequence under OR the code's evaluateConditions
returns true (its empty guard returns true for both logics), while the
fold described by the claim returns the OR identity false. -/
theorem c1_empty_or_counterexample :
    (evaluateConditions ⟨fun _ => none⟩ ⟨false⟩ [] ⟨"", [], 0⟩ [] .or).1 = true ∧
    (specFoldConditions ⟨fun _ => none⟩ ⟨false⟩ [] ⟨"", [], 0⟩ [] .or).1 = false :=
  ⟨rfl, rfl⟩

/-- Claim C1 (amended): for every non-empty condition sequence the
matcher's condition evaluation is exactly the short-circuit fold with
the identity element of the logic (AND stops false at the first
failing condition and yields true at the end, OR stops true at the
first passing condition and yields false at the end); an empty
condition sequence however evaluates to true under both logics, via
the early guard. -/
theorem c1_short_circuit_fold (env : RegexEnv) (m : Matcher) (cache : Cache)
    (entry : LogEntry) (conds : List Condition) (logic : Logic) :
    (conds ≠ [] → evaluateConditions env m cache entry conds logic =
      specFoldConditions env m cache entry conds logic) ∧
    evaluateConditions env m cache entry [] logic = (true, cache) := by
  constructor
  · intro hne
    cases conds with
    | nil => exact absurd rfl hne
    | cons c cs =>
      show evaluateConditionsLoop env m entry cache (c :: cs) logic = _
      exact evaluateConditionsLoop_eq_specFold env m entry cache (c :: cs) logic
  · rfl

/-- Witness for C1 at a concrete record and a one-condition OR
sequence. -/
theorem c1_short_circuit_fold_witness :
    ([(⟨"level", Operator.opEq, Value.str "error", false⟩ : Condition)] ≠ []) ∧
    evaluateConditions ⟨fun _ => none⟩ ⟨false⟩ []
        ⟨"", [("level", Value.str "error")], 0⟩
        [⟨"level", .opEq, .str "error", false⟩] .or =
      specFoldConditions ⟨fun _ => none⟩ ⟨false⟩ []
        ⟨"", [("level", Value.str "error")], 0⟩
        [⟨"level", .opEq, .str "error", false⟩] .or :=
  ⟨by simp, (c1_short_circuit_fold _ _ _ _ _ _).1 (by simp)⟩

/-- Claim C10: for every record and every condition whose operator is
not Exists — Ne included — a field path absent from the record's
fields makes the condition evaluate to false. -/
theorem c10_absent_field_never_matches (env : RegexEnv) (m : Matcher)
    (cache : Cache) (entry : LogEntry) (cond : Condition)
    (hop : cond.operator ≠ .opExists)
    (habs : List.lookup cond.field entry.fields = none) :
    evaluateCondition env m cache entry cond = (false, cache) := by
  unfold evaluateCondition
  rw [if_neg hop, habs]

/-- Witness for C10: a Ne condition on a record without the field does
not match. -/
theorem c10_absent_field_never_matches_witness :
    ((⟨"level", .opNe, Value.str "error", false⟩ : Condition).operator ≠ .opExists) ∧
    (List.lookup (⟨"level", .opNe, Value.str "error", false⟩ : Condition).field
      (⟨"raw", [("msg", Value.str "hi")], 1⟩ : LogEntry).fields = none) ∧
    evaluateCondition ⟨fun _ => none⟩ ⟨false⟩ [] ⟨"raw", [("msg", Value.str "hi")], 1⟩
        ⟨"level", .opNe, Value.str "error", false⟩ = (false, []) :=
  ⟨by decide, rfl,
    c10_absent_field_never_matches _ _ _ _ _ (by decide) rfl⟩

theorem foldl_eraseKey_nil (ks : List String) :
    ∀ (m : List (String × Value)), (∀ p ∈ m, p.1 ∈ ks) →
      ks.foldl eraseKey m = [] := by
  induction ks with
  | nil =>
    intro m h
    cases m with
    | nil => rfl
    | cons p rest => exact absurd (h p (by simp)) (by simp)
  | cons k ks ih =>
    intro m h
    simp only [List.foldl_cons]
    apply ih
    intro p hp
    have hmem := List.mem_of_mem_filter hp
    have hne : p.1 ≠ k := by simpa using List.of_mem_filter hp
    have := h p hmem
    simp only [List.mem_cons] at this
    exact this.resolve_left hne

theorem clearFields_eq_nil (m : List (String × Value)) : clearFields m = [] :=
  foldl_eraseKey_nil (m.map Prod.fst) m (fun p hp => List.mem_map_of_mem Prod.fst hp)

/-- Claim C8: acquiring a record from the pool — in particular one
just released with arbitrary raw line, fields, and sequence number —
always yields a fully cleared record: empty raw line, empty fields
map, sequence number zero. -/
theorem c8_acquire_always_cleared (pool : List LogEntry) :
    (AcquireEntry pool).1.raw = "" ∧ (AcquireEntry pool).1.fields = [] ∧
      (AcquireEntry pool).1.lineNum = 0 := by
  cases pool with
  | nil => exact ⟨rfl, clearFields_eq_nil _, rfl⟩
  | cons e rest => exact ⟨rfl, clearFields_eq_nil _, rfl⟩

/-- Claim C7: a Regex condition whose pattern text fails to compile
(and which, consequently, was never cached) evaluates to false against
every record, and a Match on a chain holding it returns false rather
than an error — Match has no error channel at all. -/
theorem c7_regex_compile_failure (env : RegexEnv) (m : Matcher) (cache : Cache)
    (entry : LogEntry) (cond : Condition)
    (hop : cond.operator = .opRegex)
    (hmiss : List.lookup (toString cond.value) cache = none)
    (hfail : (if cond.ignoreCase || m.ignoreCase then
                env.compile ("(?i)" ++ toString cond.value)
              else env.compile (toString cond.value)) = none) :
    evaluateCondition env m cache entry cond = (false, cache) ∧
    ∀ logic, Match env m cache entry (some (.mk [cond] logic [])) = (false, cache) := by
  have h1 : evaluateCondition env m cache entry cond = (false, cache) := by
    unfold evaluateCondition
    rw [if_neg (by simp [hop])]
    rcases hf : List.lookup cond.field entry.fields with _ | fv
    · rfl
    · unfold compareValues matchRegex
      rw [hop]
      dsimp only
      rw [hmiss]
      dsimp only
      rw [hfail]
  refine ⟨h1, fun logic => ?_⟩
  cases logic <;>
    simp [Match, matchChain, evaluateConditions, evaluateConditionsLoop, h1]

/-- Witness for C7: the regex condition msg~="(" with a compiler that
rejects the pattern evaluates to false on a record carrying the field,
and so does the Match of a chain around it. -/
theorem c7_regex_compile_failure_witness :
    ((⟨"msg", .opRegex, Value.str "(", false⟩ : Condition).operator = .opRegex) ∧
    (List.lookup (toString (Value.str "(")) ([] : Cache) = none) ∧
    evaluateCondition ⟨fun _ => none⟩ ⟨false⟩ [] ⟨"", [("msg", Value.str "hi")], 0⟩
        ⟨"msg", .opRegex, Value.str "(", false⟩ = (false, []) ∧
    Match ⟨fun _ => none⟩ ⟨false⟩ [] ⟨"", [("msg", Value.str "hi")], 0⟩
        (some (.mk [⟨"msg", .opRegex, Value.str "(", false⟩] .and [])) = (false, []) := by
  have h := c7_regex_compile_failure ⟨fun _ => none⟩ ⟨false⟩ []
    ⟨"", [("msg", Value.str "hi")], 0⟩ ⟨"msg", .opRegex, Value.str "(", false⟩
    rfl rfl rfl
  exact ⟨rfl, rfl, h.1, h.2 .and⟩

theorem charListLt_asymm : ∀ (a b : List Char),
    charListLt a b = true → charListLt b a = false
  | [], [] => by simp [charListLt]
  | [], _ :: _ => by simp [charListLt]
  | _ :: _, [] => by simp [charListLt]
  | a :: as, b :: bs => by
    intro h
    unfold charListLt at h ⊢
    by_cases hab : a = b
    · subst hab
      simp only [if_pos rfl] at h ⊢
      exact charListLt_asymm as bs h
    · rw [if_neg hab] at h
      rw [if_neg (Ne.symm hab)]
      exact decide_eq_false (asymm (of_decide_eq_true h))

theorem strLt_asymm (a b : String) (h : strLt a b = true) : strLt b a = false :=
  charListLt_asymm a.data b.data h

theorem cmpInt_gt_iff (qa qb : ℚ) :
    ((if qa < qb then (-1 : Int) else if qa > qb then 1 else 0) > 0) ↔ qb < qa := by
  rcases lt_trichotomy qa qb with h | h | h
  · simp [h, asymm h]
  · subst h
    simp [lt_irrefl]
  · simp [h, asymm h]

theorem cmpInt_lt_iff (qa qb : ℚ) :
    ((if qa < qb then (-1 : Int) else if qa > qb then 1 else 0) < 0) ↔ qa < qb := by
  rcases lt_trichotomy qa qb with h | h | h
  · simp [h]
  · subst h
    simp [lt_irrefl]
  · simp [h, asymm h]

theorem cmpInt_ge_iff (qa qb : ℚ) :
    ((if qa < qb then (-1 : Int) else if qa > qb then 1 else 0) ≥ 0) ↔ qb ≤ qa := by
  rcases lt_trichotomy qa qb with h | h | h
  · simp [h, not_le_of_lt h]
  · subst h
    simp [lt_irrefl]
  · simp [h, asymm h, le_of_lt h]

theorem cmpInt_le_iff (qa qb : ℚ) :
    ((if qa < qb then (-1 : Int) else if qa > qb then 1 else 0) ≤ 0) ↔ qa ≤ qb := by
  rcases lt_trichotomy qa qb with h | h | h
  · simp [h, le_of_lt h]
  · subst h
    simp [lt_irrefl]
  · simp [h, asymm h, not_le_of_lt h]

theorem compare_eq_num (a b : Value) (qa qb : ℚ)
    (ha : toFloat64 a = some qa) (hb : toFloat64 b = some qb) :
    compare a b = (if qa < qb then -1 else if qa > qb then 1 else 0) := by
  unfold compare
  rw [ha, hb]

theorem compare_eq_str (a b : Value)
    (h : toFloat64 a = none ∨ toFloat64 b = none) :
    compare a b =
      (if strLt (toString a) (toString b) then -1
       else if strLt (toString b) (toString a) then 1 else 0) := by
  unfold compare
  rcases hA : toFloat64 a with _ | qa <;> rcases hB : toFloat64 b with _ | qb <;>
    first
      | rfl
      | (exfalso; rcases h with h | h <;> simp_all)

theorem cmpStr_gt (a b : String) :
    decide ((if strLt a b then (-1 : Int) else if strLt b a then 1 else 0) > 0) =
      strLt b a := by
  rcases hab : strLt a b with _ | _ <;> rcases hba : strLt b a with _ | _ <;>
    simp_all
  exact absurd (strLt_asymm a b hab) (by simp [hba])

theorem cmpStr_lt (a b : String) :
    decide ((if strLt a b then (-1 : Int) else if strLt b a then 1 else 0) < 0) =
      strLt a b := by
  rcases hab : strLt a b with _ | _ <;> rcases hba : strLt b a with _ | _ <;>
    simp_all

theorem cmpStr_ge (a b : String) :
    decide ((if strLt a b then (-1 : Int) else if strLt b a then 1 else 0) ≥ 0) =
      ! strLt a b := by
  rcases hab : strLt a b with _ | _ <;> rcases hba : strLt b a with _ | _ <;>
    simp_all

theorem cmpStr_le (a b : String) :
    decide ((if strLt a b then (-1 : Int) else if strLt b a then 1 else 0) ≤ 0) =
      ! strLt b a := by
  rcases hab : strLt a b with _ | _ <;> rcases hba : strLt b a with _ | _ <;>
    simp_all
  exact absurd (strLt_asymm a b hab) (by simp [hba])

/-- Claim C4: for Gt, Lt, Gte, Lte on a present field, when both the
field value and the condition value coerce to a float the result is
the numeric comparison of the coerced values, and otherwise it is the
lexicographic comparison of the two string representations. -/
theorem c4_ordering_comparisons (env : RegexEnv) (m : Matcher) (cache : Cache)
    (entry : LogEntry) (cond : Condition) (fv : Value)
    (hfind : List.lookup cond.field entry.fields = some fv)
    (hop : cond.operator = .opGt ∨ cond.operator = .opLt ∨
      cond.operator = .opGte ∨ cond.operator = .opLte) :
    (evaluateCondition env m cache entry cond).1 =
      (match toFloat64 fv, toFloat64 cond.value with
       | some qa, some qb => numCmpHolds cond.operator qa qb
       | _, _ => strCmpHolds cond.operator (toString fv) (toString cond.value)) := by
  have hne : cond.operator ≠ .opExists := by
    rcases hop with h | h | h | h <;> simp [h]
  unfold evaluateCondition
  rw [if_neg hne, hfind]
  dsimp only
  unfold compareValues
  rcases hA : toFloat64 fv with _ | qa <;> rcases hB : toFloat64 cond.value with _ | qb <;>
    [skip; skip; skip;
      (rcases hop with h | h | h | h <;>
        rw [h] <;> dsimp only <;>
        rw [compare_eq_num fv cond.value qa qb hA hB] <;>
        unfold numCmpHolds <;>
        first
          | exact decide_eq_decide.mpr (cmpInt_gt_iff qa qb)
          | exact decide_eq_decide.mpr (cmpInt_lt_iff qa qb)
          | exact decide_eq_decide.mpr (cmpInt_ge_iff qa qb)
          | exact decide_eq_decide.mpr (cmpInt_le_iff qa qb))] <;>
  · rcases hop with h | h | h | h <;>
      rw [h] <;> dsimp only <;>
      rw [compare_eq_str fv cond.value (by simp [hA, hB])] <;>
      unfold strCmpHolds <;>
      first
        | exact cmpStr_gt (toString fv) (toString cond.value)
        | exact cmpStr_lt (toString fv) (toString cond.value)
        | exact cmpStr_ge (toString fv) (toString cond.value)
        | exact cmpStr_le (toString fv) (toString cond.value)

/-- Witness for C4: the record with string field port = "8080"
satisfies port>"8000" via numeric coercion of both sides. -/
theorem c4_ordering_comparisons_witness :
    (List.lookup "port" [("port", Value.str "8080")] = some (Value.str "8080")) ∧
    ((⟨"port", .opGt, ParseValue "8000", false⟩ : Condition).operator = .opGt) ∧
    (evaluateCondition ⟨fun _ => none⟩ ⟨false⟩ [] ⟨"", [("port", Value.str "8080")], 0⟩
        ⟨"port", .opGt, ParseValue "8000", false⟩).1 = true := by
  refine ⟨rfl, rfl, ?_⟩
  have h := c4_ordering_comparisons ⟨fun _ => none⟩ ⟨false⟩ []
    ⟨"", [("port", Value.str "8080")], 0⟩ ⟨"port", .opGt, ParseValue "8000", false⟩
    (Value.str "8080") rfl (Or.inl rfl)
  rw [h]
  with_unfolding_all rfl

/-- Claim C5: Eq and Ne on a present field compare the string
representations of the field value and the condition value,
case-insensitively exactly when the condition's flag or the matcher's
global flag requests it; the renderings are decimal for integers,
shortest-form without trailing zeros for floats, "true"/"false" for
booleans, and the empty string for null — so the integer field 500 is
Eq-equal to the condition value parsed from "500". -/
theorem c5_eq_ne_string_representation (env : RegexEnv) (m : Matcher) (cache : Cache)
    (entry : LogEntry) (cond : Condition) (fv : Value)
    (hfind : List.lookup cond.field entry.fields = some fv)
    (hop : cond.operator = .opEq ∨ cond.operator = .opNe) :
    ((evaluateCondition env m cache entry cond).1 =
      (let ci := cond.ignoreCase || m.ignoreCase
       let same := if ci then equalFold (toString fv) (toString cond.value)
                   else toString fv == toString cond.value
       if cond.operator = .opEq then same else ! same)) ∧
    (∀ i : Int, toString (Value.int i) = intToDecimal i) ∧
    toString (Value.int 500) = "500" ∧
    toString (Value.bool true) = "true" ∧
    toString (Value.bool false) = "false" ∧
    toString Value.null = "" ∧
    toString (Value.float (1 / 2 : ℚ)) = "0.5" ∧
    toString (Value.float (500 : ℚ)) = "500" ∧
    ParseValue "500" = Value.int 500 ∧
    equal (Value.int 500) (ParseValue "500") false = true := by
  refine ⟨?_, fun i => rfl, rfl, rfl, rfl, rfl, by with_unfolding_all rfl,
    by with_unfolding_all rfl, rfl, rfl⟩
  rcases hop with h | h <;>
  · unfold evaluateCondition
    rw [if_neg (by simp [h]), hfind]
    dsimp only
    unfold compareValues
    rw [h]
    dsimp only
    unfold equal
    simp [h]

/-- Witness for C5: the record with integer field status = 500 is
Eq-matched by the condition parsed from status:"500". -/
theorem c5_eq_ne_string_representation_witness :
    (List.lookup "status" [("status", Value.int 500)] = some (Value.int 500)) ∧
    ((⟨"status", .opEq, ParseValue "500", false⟩ : Condition).operator = .opEq ∨
      (⟨"status", .opEq, ParseValue "500", false⟩ : Condition).operator = .opNe) ∧
    (evaluateCondition ⟨fun _ => none⟩ ⟨false⟩ [] ⟨"", [("status", Value.int 500)], 0⟩
        ⟨"status", .opEq, ParseValue "500", false⟩).1 = true := by
  refine ⟨rfl, Or.inl rfl, ?_⟩
  have h := (c5_eq_ne_string_representation ⟨fun _ => none⟩ ⟨false⟩ []
    ⟨"", [("status", Value.int 500)], 0⟩ ⟨"status", .opEq, ParseValue "500", false⟩
    (Value.int 500) rfl (Or.inl rfl)).1
  rw [h]
  rfl

/-- Claim C2: at an opening parenthesis, parseTerm scans forward to
the depth-matching closing parenthesis and parses the inner content
only as a single term — the group contributes exactly one condition
and no nested boolean structure — and when no matching closing
parenthesis exists the scan fails, and Parse fails, with the
UnclosedGroup error. -/
theorem c2_paren_group_single_term (input : List Char) (pos : Nat)
    (h : skipWhitespace input pos < input.length)
    (hc : input.get ⟨skipWhitespace input pos, h⟩ = '(') :
    (parseTerm input pos =
      (match scanGroup input (skipWhitespace input pos + 1) 1 with
       | none => .error .unclosedParen
       | some j =>
         match parseTerm (strSub input (skipWhitespace input pos + 1) (j - 1)) 0 with
         | .error e => .error e
         | .ok (cond, _) => .ok (cond, j))) ∧
    (∀ q : String, trimSpace q ≠ "" → (trimSpace q).data.head? = some '(' →
      scanGroup (trimSpace q).data 1 1 = none →
      Parse q = .error .unclosedParen) := by
  constructor
  · rw [parseTerm.eq_def]
    dsimp only
    rw [dif_pos h, if_pos hc]
  · intro q hne hstart hscan
    rcases hdata : (trimSpace q).data with _ | ⟨c, tl⟩
    · rw [hdata] at hstart
      exact absurd hstart (by simp)
    · rw [hdata] at hstart
      have hc2 : c = '(' := by simpa using hstart
      subst hc2
      rw [hdata] at hscan
      have hterm : parseTerm (trimSpace q).data 0 = .error .unclosedParen := by
        rw [parseTerm.eq_def, hdata]
        have hskip : skipWhitespace ('(' :: tl) 0 = 0 := rfl
        simp only [hskip]
        rw [dif_pos (by simp)]
        rw [if_pos (by rfl)]
        have : scanGroup ('(' :: tl) (0 + 1) 1 = none := hscan
        rw [this]
      have hor : parseOrExpr (trimSpace q).data 0 = .error .unclosedParen := by
        unfold parseOrExpr
        rw [hterm]
      have hand : parseAndExpr (trimSpace q).data 0 = .error .unclosedParen := by
        unfold parseAndExpr
        rw [hor]
      unfold Parse parseExpression
      dsimp only
      rw [if_neg hne, hand]

/-- Witness for C2: in the query (a:1|b:2),x:3 the group is scanned to
its matching parenthesis and contributes the single condition a=1
(the piped alternative inside the group is discarded); the query (a:1
fails with UnclosedGroup. -/
theorem c2_paren_group_single_term_witness :
    (skipWhitespace "(a:1|b:2),x:3".data 0 < "(a:1|b:2),x:3".data.length) ∧
    parseTerm "(a:1|b:2),x:3".data 0 = .ok (⟨"a", .opEq, .int 1, false⟩, 9) ∧
    trimSpace "(a:1" ≠ "" ∧ (trimSpace "(a:1").data.head? = some '(' ∧
    scanGroup (trimSpace "(a:1").data 1 1 = none ∧
    Parse "(a:1" = .error .unclosedParen := by
  have hlt : skipWhitespace "(a:1|b:2),x:3".data 0 < "(a:1|b:2),x:3".data.length := by
    decide
  have hget : "(a:1|b:2),x:3".data.get ⟨skipWhitespace "(a:1|b:2),x:3".data 0, hlt⟩ = '(' := by
    rfl
  have hmain := c2_paren_group_single_term "(a:1|b:2),x:3".data 0 hlt hget
  refine ⟨hlt, ?_, by decide, rfl, rfl, hmain.2 "(a:1" (by decide) rfl rfl⟩
  rw [hmain.1]
  have hscan : scanGroup "(a:1|b:2),x:3".data
      (skipWhitespace "(a:1|b:2),x:3".data 0 + 1) 1 = some 9 := rfl
  rw [hscan]
  dsimp only
  have hinner : parseTerm (strSub "(a:1|b:2),x:3".data
      (skipWhitespace "(a:1|b:2),x:3".data 0 + 1) (9 - 1)) 0 =
      .ok (⟨"a", .opEq, .int 1, false⟩, 3) := by
    rw [parseTerm.eq_def]
    rfl
  rw [hinner]

/-- Claim C3: ParseValue infers the type of a literal in the fixed
order integer, float, boolean (case-insensitive), null (null/nil,
case-insensitive), string fallback; quoted condition values go through
the same inference, so parsing level:"500" yields the integer 500, not
the string "500". -/
theorem c3_parse_value_inference_order (s : String) :
    (∀ i : Int, parseInt64 s = some i → ParseValue s = .int i) ∧
    (parseInt64 s = none → ∀ q : ℚ, parseFloatQ s = some q → ParseValue s = .float q) ∧
    (parseInt64 s = none → parseFloatQ s = none →
      ((asciiToLower s = "true" → ParseValue s = .bool true) ∧
       (asciiToLower s = "false" → ParseValue s = .bool false) ∧
       ((asciiToLower s = "null" ∨ asciiToLower s = "nil") → ParseValue s = .null) ∧
       (asciiToLower s ≠ "true" → asciiToLower s ≠ "false" → asciiToLower s ≠ "null" →
        asciiToLower s ≠ "nil" → ParseValue s = .str s))) ∧
    parseCondition "level:\"500\"".data 0 =
      .ok (⟨"level", .opEq, .int 500, false⟩, 11) := by
  refine ⟨?_, ?_, ?_, rfl⟩
  · intro i h
    unfold ParseValue
    rw [h]
  · intro hn q hq
    unfold ParseValue
    rw [hn, hq]
  · intro hn hf
    refine ⟨?_, ?_, ?_, ?_⟩
    · intro h
      unfold ParseValue
      rw [hn, hf, h]
      rfl
    · intro h
      unfold ParseValue
      rw [hn, hf, h]
      rfl
    · intro h
      unfold ParseValue
      rcases h with h | h <;> rw [hn, hf, h] <;> rfl
    · intro h1 h2 h3 h4
      unfold ParseValue
      rw [hn, hf]
      simp [h1, h2, h3, h4]

/-- Witness for C3: "500" parses as an integer. -/
theorem c3_parse_value_inference_order_witness :
    parseInt64 "500" = some 500 ∧ ParseValue "500" = Value.int 500 :=
  ⟨rfl, (c3_parse_value_inference_order "500").1 500 rfl⟩

theorem flattenWrites_nil (pre : String) : flattenWrites pre [] = [] := by
  rw [flattenWrites.eq_def]

theorem flattenWrites_cons (pre k : String) (v : Value) (rest : List (String × Value)) :
    flattenWrites pre ((k, v) :: rest) =
      (match v with
       | .obj m => flattenWrites (joinKey pre k) m ++ [(joinKey pre k, .obj m)]
       | .arr vs => (joinKey pre k, .arr vs) :: arrWrites (joinKey pre k) 0 vs
       | v => [(joinKey pre k, v)]) ++ flattenWrites pre rest := by
  rw [flattenWrites.eq_def]

theorem arrWrites_nil (fk : String) (i : Nat) : arrWrites fk i [] = [] := by
  rw [arrWrites.eq_def]

theorem arrWrites_cons (fk : String) (i : Nat) (v : Value) (rest : List Value) :
    arrWrites fk i (v :: rest) =
      (match v with
       | .obj m => flattenWrites (fk ++ "[" ++ intToDecimal i ++ "]") m
       | _ => []) ++ arrWrites fk (i + 1) rest := by
  rw [arrWrites.eq_def]

theorem mem_flattenWrites_top (pre : String) :
    ∀ (data : List (String × Value)) (k : String) (v : Value),
      (k, v) ∈ data → (joinKey pre k, v) ∈ flattenWrites pre data := by
  intro data
  induction data with
  | nil => intro k v h; exact absurd h (by simp)
  | cons p rest ih =>
    rcases p with ⟨key, val⟩
    intro k v h
    rw [flattenWrites_cons]
    rcases List.mem_cons.1 h with h1 | h1
    · injection h1 with hk hv
      subst hk
      subst hv
      apply List.mem_append_left
      cases v <;> simp
    · exact List.mem_append_right _ (ih k v h1)

theorem flattenWrites_obj_sub (pre : String) :
    ∀ (data : List (String × Value)) (k : String) (m : List (String × Value)),
      (k, .obj m) ∈ data →
      ∀ w ∈ flattenWrites (joinKey pre k) m, w ∈ flattenWrites pre data := by
  intro data
  induction data with
  | nil => intro k m h; exact absurd h (by simp)
  | cons p rest ih =>
    rcases p with ⟨key, val⟩
    intro k m h w hw
    rw [flattenWrites_cons]
    rcases List.mem_cons.1 h with h1 | h1
    · injection h1 with hk hv
      subst hk
      subst hv
      exact List.mem_append_left _ (List.mem_append_left _ hw)
    · exact List.mem_append_right _ (ih k m h1 w hw)

theorem arrWrites_elem_sub (fk : String) :
    ∀ (vs : List Value) (i0 i : Nat) (m : List (String × Value)),
      vs[i]? = some (.obj m) →
      ∀ w ∈ flattenWrites (fk ++ "[" ++ intToDecimal ((i0 + i : Nat) : Int) ++ "]") m,
        w ∈ arrWrites fk i0 vs := by
  intro vs
  induction vs with
  | nil => intro i0 i m h; simp at h
  | cons v rest ih =>
    intro i0 i m h w hw
    rw [arrWrites_cons]
    cases i with
    | zero =>
      simp only [List.getElem?_cons_zero, Option.some.injEq] at h
      subst h
      exact List.mem_append_left _ (by simpa using hw)
    | succ j =>
      simp only [List.getElem?_cons_succ] at h
      refine List.mem_append_right _ (ih (i0 + 1) j m h w ?_)
      have harith : i0 + 1 + j = i0 + (j + 1) := by omega
      rw [harith]
      exact hw

theorem flattenWrites_arr_sub (pre : String) :
    ∀ (data : List (String × Value)) (k : String) (vs : List Value),
      (k, .arr vs) ∈ data →
      ∀ w ∈ arrWrites (joinKey pre k) 0 vs, w ∈ flattenWrites pre data := by
  intro data
  induction data with
  | nil => intro k vs h; exact absurd h (by simp)
  | cons p rest ih =>
    rcases p with ⟨key, val⟩
    intro k vs h w hw
    rw [flattenWrites_cons]
    rcases List.mem_cons.1 h with h1 | h1
    · injection h1 with hk hv
      subst hk
      subst hv
      exact List.mem_append_left _ (List.mem_cons_of_mem _ hw)
    · exact List.mem_append_right _ (ih k vs h1 w hw)

theorem mem_keys_mapStore_self (m : List (String × Value)) (k : String) (v : Value) :
    k ∈ (mapStore m k v).map Prod.fst := by
  unfold mapStore
  split
  · next h =>
    rcases List.any_eq_true.1 h with ⟨p, hp, hpk⟩
    have hpk' : p.1 = k := by simpa using hpk
    refine List.mem_map.2 ⟨(k, v), List.mem_map.2 ⟨p, hp, ?_⟩, rfl⟩
    rw [if_pos hpk']
  · simp

theorem mem_keys_mapStore_mono (m : List (String × Value)) (k k' : String)
    (v : Value) (h : k' ∈ m.map Prod.fst) : k' ∈ (mapStore m k v).map Prod.fst := by
  by_cases hkk : k' = k
  · subst hkk
    exact mem_keys_mapStore_self m k' v
  · unfold mapStore
    split
    · rcases List.mem_map.1 h with ⟨p, hp, hpk⟩
      refine List.mem_map.2 ⟨if p.1 = k then (k, v) else p, List.mem_map.2 ⟨p, hp, rfl⟩, ?_⟩
      rw [if_neg (by rw [hpk]; exact hkk)]
      exact hpk
    · rw [List.map_append]
      exact List.mem_append_left _ h

theorem mem_keys_applyWrites_mono :
    ∀ (ws : List (String × Value)) (r : List (String × Value)) (k' : String),
      k' ∈ r.map Prod.fst → k' ∈ (applyWrites r ws).map Prod.fst := by
  intro ws
  induction ws with
  | nil => intro r k' h; exact h
  | cons w rest ih =>
    intro r k' h
    exact ih (mapStore r w.1 w.2) k' (mem_keys_mapStore_mono r w.1 k' w.2 h)

theorem mem_writes_keys_applyWrites :
    ∀ (ws : List (String × Value)) (r : List (String × Value)) (k' : String) (v' : Value),
      (k', v') ∈ ws → k' ∈ (applyWrites r ws).map Prod.fst := by
  intro ws
  induction ws with
  | nil => intro r k' v' h; exact absurd h (by simp)
  | cons w rest ih =>
    intro r k' v' h
    rcases List.mem_cons.1 h with h1 | h1
    · subst h1
      exact mem_keys_applyWrites_mono rest (mapStore r k' v') k'
        (mem_keys_mapStore_self r k' v')
    · exact ih (mapStore r w.1 w.2) k' v' h1

/-- Claim C6: the structured parser's flattening stores, for every
entry of a (nested) mapping, the value at its dot-joined path; for a
nested mapping both its flattened contents and the mapping itself at
the parent path; for an array the array verbatim at its path plus the
flattening of every mapping element under path[index]; every stored
key is present in the resulting fields map — in particular the example
object stores both user.profile.role = "admin" and user.profile = the
nested mapping. -/
theorem c6_flatten_paths (pre : String) (data res : List (String × Value)) :
    (∀ k v, (k, v) ∈ data → (joinKey pre k, v) ∈ flattenWrites pre data) ∧
    (∀ k m, (k, Value.obj m) ∈ data →
      ∀ w ∈ flattenWrites (joinKey pre k) m, w ∈ flattenWrites pre data) ∧
    (∀ k vs (i : Nat) m, (k, Value.arr vs) ∈ data → vs[i]? = some (Value.obj m) →
      ∀ w ∈ flattenWrites (joinKey pre k ++ "[" ++ intToDecimal ((i : Nat) : Int) ++ "]") m,
        w ∈ flattenWrites pre data) ∧
    (∀ k v, (k, v) ∈ flattenWrites pre data →
      k ∈ (flattenMap pre data res).map Prod.fst) ∧
    (List.lookup "user.profile.role"
        (flattenMap "" [("user", .obj [("profile", .obj [("role", .str "admin")])])] []) =
      some (.str "admin")) ∧
    (List.lookup "user.profile"
        (flattenMap "" [("user", .obj [("profile", .obj [("role", .str "admin")])])] []) =
      some (.obj [("role", .str "admin")])) := by
  refine ⟨mem_flattenWrites_top pre data, flattenWrites_obj_sub pre data,
    ?_, ?_, ?_, ?_⟩
  · intro k vs i m harr hidx w hw
    have hsub : w ∈ arrWrites (joinKey pre k) 0 vs := by
      have h0 := arrWrites_elem_sub (joinKey pre k) vs 0 i m hidx w
      simp only [Nat.zero_add] at h0
      exact h0 hw
    exact flattenWrites_arr_sub pre data k vs harr w hsub
  · intro k v h
    exact mem_writes_keys_applyWrites (flattenWrites pre data) res k v h
  · simp only [flattenMap, flattenWrites_cons, flattenWrites_nil]
    rfl
  · simp only [flattenMap, flattenWrites_cons, flattenWrites_nil]
    rfl

/-- Witness for C6: in the example object, the entry role = "admin" of
the innermost mapping is stored at the dot-joined path, and the stored
key is present in the final fields map. -/
theorem c6_flatten_paths_witness :
    (("role", Value.str "admin") ∈ [("role", Value.str "admin")]) ∧
    (joinKey "user.profile" "role", Value.str "admin") ∈
      flattenWrites "user.profile" [("role", Value.str "admin")] ∧
    (("user", Value.obj [("profile", Value.obj [("role", Value.str "admin")])]) ∈
      [("user", Value.obj [("profile", Value.obj [("role", Value.str "admin")])])]) ∧
    List.lookup "user.profile.role"
        (flattenMap "" [("user", .obj [("profile", .obj [("role", .str "admin")])])] []) =
      some (.str "admin") := by
  refine ⟨by simp, ?_, by simp, ?_⟩
  · exact (c6_flatten_paths "user.profile" [("role", Value.str "admin")] []).1
      "role" (Value.str "admin") (by simp)
  · exact (c6_flatten_paths "" [("user", .obj [("profile", .obj [("role", .str "admin")])])]
      []).2.2.2.2.1

/-- With the schedule that lets each worker number its line before the
next line is received, sequence numbers do match source positions:
the model is not rigged against the claim. -/
theorem runSched_inorder_example :
    (runSched (fun _ => true) [.recv 0, .proc 0, .recv 1, .proc 1]
      (initState ["a", "b"] 2)).output = [(1, "a", 1), (2, "b", 2)] := rfl

/-- Claim C9, failing execution: with two workers on the two-line
input ["a", "b"], the interleaving in which worker 0 receives line 1,
worker 1 receives line 2, and worker 1 then acquires the counter mutex
first, emits the record for line "b" — source position 2 — with
sequence number 1 (and line "a" with sequence number 2): a record on
the output channel does not carry the 1-based position of its source
line, because the channel receive and the counter increment are
separate critical sections. -/
theorem c9_sequence_number_race :
    (runSched (fun _ => true) [.recv 0, .recv 1, .proc 1, .proc 0]
      (initState ["a", "b"] 2)).output = [(2, "b", 1), (1, "a", 2)] ∧
    ¬ (∀ r ∈ (runSched (fun _ => true) [.recv 0, .recv 1, .proc 1, .proc 0]
        (initState ["a", "b"] 2)).output, r.2.2 = r.1) := by
  constructor
  · rfl
  · decide

end Flog
